import Mathlib

set_option maxHeartbeats 1000000

/-!
Verification development for the immutable-value merge engine of
`src/vendor_upstream/immutable-value/ImmutableObject.js`.

Two embeddings are developed:

* a pure value embedding (`JSValue`), in which a JavaScript value is a tree
  and objects are ordered association lists of (key, value) pairs with the
  iteration order of JavaScript string-keyed own properties;
* a store embedding (`Node` / `Heap`), in which every value lives at an
  address in an allocation list and object fields hold addresses, used to
  state frame properties (no mutation of pre-existing values) and
  reference-identity properties (structural sharing of sub-trees).

The file `ImmutableObject.js` requires `ImmutableValue` (for
`mergeAllPropertiesInto`) and `mergeHelpers` (for `checkMergeObjectArgs` and
`isTerminal`), neither of which is part of the sources; those collaborators
are modelled from the specification and explicitly marked as such below.
-/

/-- A JavaScript runtime value as the merge engine observes it.  Primitives
are collapsed into a single integer-carrying constructor (the merge engine
never looks inside a primitive); `plain` is a plain object, `immut` is an
object that is an `instanceof ImmutableValue`.  Object fields are kept as an
ordered association list, matching the iteration order of string-keyed own
properties that `Object.keys`, `for..in` and property assignment observe. -/
inductive JSValue : Type where
  | prim : Int → JSValue
  | vnull : JSValue
  | undef : JSValue
  | arr : List JSValue → JSValue
  | plain : List (String × JSValue) → JSValue
  | immut : List (String × JSValue) → JSValue

/-- First value bound to key `k` in an association list (JavaScript property
lookup; keys are unique in any list built by property assignment). -/
def olookup {α : Type} : List (String × α) → String → Option α
  | [], _ => none
  | (k', v) :: rest, k => if k' = k then some v else olookup rest k

/-- JavaScript property assignment `o[k] = v` on the ordered field list: an
existing key keeps its position and is reassigned, a new key is appended. -/
def jsAssign {α : Type} : List (String × α) → String → α → List (String × α)
  | [], k, v => [(k, v)]
  | (k', v') :: rest, k, v =>
    if k' = k then (k', v) :: rest else (k', v') :: jsAssign rest k v

/-- The keys of an ordered field list, in iteration order (`Object.keys`). -/
def objKeys {α : Type} (l : List (String × α)) : List String := l.map Prod.fst

/-- Own enumerable fields of a value: the field list of a plain object or an
ImmutableValue, empty for every other value. -/
def jsOwnEntries : JSValue → List (String × JSValue)
  | .plain fs => fs
  | .immut fs => fs
  | _ => []

/-- JavaScript `value.hasOwnProperty(k)`. -/
def hasOwnV (v : JSValue) (k : String) : Bool :=
  (olookup (jsOwnEntries v) k).isSome

/-- JavaScript property read `value[k]`: `undefined` when the key is absent. -/
def jsGetV (v : JSValue) (k : String) : JSValue :=
  (olookup (jsOwnEntries v) k).getD JSValue.undef

/-- JavaScript `value instanceof ImmutableValue`. -/
def isImmutableValue : JSValue → Bool
  | .immut _ => true
  | _ => false

/-- JavaScript `typeof value === 'object'`: true for plain objects,
ImmutableValues, arrays, and — a JavaScript peculiarity — `null`. -/
def typeofIsObject : JSValue → Bool
  | .vnull => true
  | .arr _ => true
  | .plain _ => true
  | .immut _ => true
  | _ => false

/-- JavaScript `Array.isArray(value)`. -/
def isArrayV : JSValue → Bool
  | .arr _ => true
  | _ => false

/-- JavaScript `value === undefined`. -/
def isUndefV : JSValue → Bool
  | .undef => true
  | _ => false

/-- Error classes raised by the merge engine (`invariant` failures).
`outOfFuel` is used only by the store embedding's step budget. -/
inductive MergeError : Type where
  | notImmutable
  | invalidPatch
  | invalidArgument
  | outOfFuel
deriving Repr, DecidableEq

/-- Modelled from the spec: `mergeHelpers.isTerminal` is required from the
module `mergeHelpers`, which is not among the sources.  Spec §4.1: a value is
terminal iff it is not a mapping capable of key-wise merge — primitives,
`null`, `undefined` and arrays are terminal; plain mappings and Immutable
Values are non-terminal. -/
def isTerminal : JSValue → Bool
  | .plain _ => false
  | .immut _ => false
  | _ => true

/-- Modelled from the spec: `mergeHelpers.checkMergeObjectArgs` is required
from the module `mergeHelpers`, which is not among the sources.  Spec §4.2
step 1 / §7: both members of the pair must be mapping-shaped, otherwise an
`InvalidArgument`-class error is raised. -/
def checkMergeObjectArgs (one two : JSValue) : Except MergeError Unit :=
  if isTerminal one || isTerminal two then .error .invalidArgument else .ok ()

/-- Modelled from the spec: one step of `ImmutableValue.mergeAllPropertiesInto`
(required from `ImmutableValue`, not among the sources) — merging one source
object into the target under construction.  Spec §4.2 (shallow merge
behaviour, here with the target as base): each field of the mapping source is
assigned in iteration order; a key already in the target keeps its position
and takes the source's value, a new key is appended.  A non-mapping source
contributes no fields. -/
def mergeInto (target : List (String × JSValue)) (source : JSValue) :
    List (String × JSValue) :=
  (jsOwnEntries source).foldl (fun t kv => jsAssign t kv.1 kv.2) target

/-- Modelled from the spec: `new ImmutableObject(sources...)` — the
constructor calls `ImmutableValue.mergeAllPropertiesInto(this, arguments)`,
merging every source object in order into the blank new instance, then seals
it (spec §2, §6: construction freezes the value immediately). -/
def newImmutableObject (sources : List JSValue) : JSValue :=
  .immut (sources.foldl mergeInto [])

/-- Embeds the validation condition of `ImmutableObject.set` (line 81):
`typeof put === 'object' && put !== undefined && !Array.isArray(put)`.
Note `typeof null === 'object'` holds in JavaScript, and the middle conjunct
is redundant (`typeof undefined` is `'undefined'`). -/
def setPatchOk (put : JSValue) : Bool :=
  typeofIsObject put && !isUndefV put && !isArrayV put

/-- Embeds `ImmutableObject.set` (lines 78-85): assert the base is an
`ImmutableValue`, validate the patch, then build
`new ImmutableObject(immutable, put)`. -/
def ImmutableObject.set (immutable put : JSValue) : Except MergeError JSValue :=
  if !isImmutableValue immutable then .error .notImmutable
  else if !setPatchOk put then .error .invalidPatch
  else .ok (newImmutableObject [immutable, put])

/-- Embeds `ImmutableObject.setProperty` (lines 96-100):
`set(immutableObject, put)` with `put = {}; put[fieldName] = putField`. -/
def ImmutableObject.setProperty (immutableObject : JSValue) (fieldName : String)
    (putField : JSValue) : Except MergeError JSValue :=
  ImmutableObject.set immutableObject (JSValue.plain [(fieldName, putField)])

/-- Embeds `ImmutableObject.deleteProperty` (lines 110-118): copy every own
field except `droppedField` into a fresh plain object, in iteration order,
then build `new ImmutableObject(copy)`. -/
def ImmutableObject.deleteProperty (immutableObject : JSValue)
    (droppedField : String) : JSValue :=
  let copy := (jsOwnEntries immutableObject).foldl
    (fun c kv => if kv.1 ≠ droppedField then jsAssign c kv.1 kv.2 else c) []
  newImmutableObject [JSValue.plain copy]

/-- Embeds `ImmutableObject.values` (lines 141-143). -/
def ImmutableObject.values (immutable : JSValue) : List JSValue :=
  (jsOwnEntries immutable).map Prod.snd

/-- Embeds the second loop of `_setDeep` (lines 163-171): for each key of
`put` in order, skip it if `obj` has it, otherwise assign `put[newKey]` to
the accumulated `totalNewFields`. -/
def appendNewKeys (total : List (String × JSValue)) (obj put : JSValue) :
    List (String × JSValue) :=
  (jsOwnEntries put).foldl
    (fun t kv => if hasOwnV obj kv.1 then t else jsAssign t kv.1 (jsGetV put kv.1))
    total

mutual

/-- Embeds `_setDeep` (lines 146-178): validate the pair, copy the base
object's entries first (merging key-wise, see `mergeBaseEntries`), apply the
keys the base didn't have, and wrap in a `new ImmutableObject` iff `obj` or
`put` is an `ImmutableValue`.  The match on `obj` exposes the base's field
list; the validation already rules every non-mapping `obj` out. -/
def _setDeep (obj put : JSValue) : Except MergeError JSValue :=
  match checkMergeObjectArgs obj put with
  | .error e => .error e
  | .ok _ =>
    match obj with
    | .plain bents | .immut bents =>
      match mergeBaseEntries [] bents put with
      | .error e => .error e
      | .ok merged =>
        let totalNewFields := appendNewKeys merged obj put
        .ok (if isImmutableValue obj then newImmutableObject [JSValue.plain totalNewFields]
             else if isImmutableValue put then newImmutableObject [JSValue.plain totalNewFields]
             else JSValue.plain totalNewFields)
    | _ => .error .invalidArgument
termination_by sizeOf obj

/-- Embeds the first loop of `_setDeep` (lines 150-161): walk the base
object's entries in order, accumulating into `totalNewFields` — carry the
base's value when `put` lacks the key, take `put`'s value when either side is
terminal, and recurse otherwise. -/
def mergeBaseEntries (total : List (String × JSValue))
    (bents : List (String × JSValue)) (put : JSValue) :
    Except MergeError (List (String × JSValue)) :=
  match bents with
  | [] => .ok total
  | (key, bval) :: rest =>
    if hasOwnV put key = false then
      mergeBaseEntries (jsAssign total key bval) rest put
    else if isTerminal bval || isTerminal (jsGetV put key) then
      mergeBaseEntries (jsAssign total key (jsGetV put key)) rest put
    else
      match _setDeep bval (jsGetV put key) with
      | .error e => .error e
      | .ok r => mergeBaseEntries (jsAssign total key r) rest put
termination_by sizeOf bents

end

/-- Embeds `ImmutableObject.setDeep` (lines 130-133). -/
def ImmutableObject.setDeep (immutable put : JSValue) : Except MergeError JSValue :=
  if !isImmutableValue immutable then .error .notImmutable
  else _setDeep immutable put

/-- One row of the first `_setDeep` loop (lines 152-160) as a function of the
base entry: `mergeBaseEntries` is proved below to compute exactly these rows
in order.  Introduced only to phrase the loop's characterization. -/
def mergeRow (put : JSValue) (kv : String × JSValue) :
    Except MergeError (String × JSValue) :=
  if hasOwnV put kv.1 = false then .ok kv
  else if isTerminal kv.2 || isTerminal (jsGetV put kv.1) then .ok (kv.1, jsGetV put kv.1)
  else
    match _setDeep kv.2 (jsGetV put kv.1) with
    | .error e => .error e
    | .ok r => .ok (kv.1, r)

/-- All rows of the first `_setDeep` loop in order, first error winning. -/
def rowsM (put : JSValue) : List (String × JSValue) →
    Except MergeError (List (String × JSValue))
  | [] => .ok []
  | kv :: rest =>
    match mergeRow put kv with
    | .error e => .error e
    | .ok x =>
      match rowsM put rest with
      | .error e => .error e
      | .ok l => .ok (x :: l)

/-! ### Store embedding

The same code, embedded with values living at addresses of an allocation
list, so that mutation of existing values and reference identity of shared
sub-trees are expressible.  A heap node is one JavaScript value whose object
fields hold addresses; the heap only ever grows by allocation at the end. -/

/-- An address into the allocation list. -/
abbrev Addr := Nat

/-- One JavaScript value in the store embedding; object fields are addresses
of the field values. -/
inductive Node : Type where
  | prim : Int → Node
  | vnull : Node
  | undef : Node
  | arr : List Addr → Node
  | plain : List (String × Addr) → Node
  | immut : List (String × Addr) → Node
deriving Repr, DecidableEq

/-- The heap: node at address `a` is `h[a]?`. -/
abbrev Heap := List Node

/-- Allocate a fresh node at the end of the heap. -/
def alloc (h : Heap) (n : Node) : Heap × Addr := (h ++ [n], h.length)

/-- Own enumerable fields of a node. -/
def entriesN : Node → List (String × Addr)
  | .plain fs => fs
  | .immut fs => fs
  | _ => []

/-- Store-level `value instanceof ImmutableValue`. -/
def isImmutN : Node → Bool
  | .immut _ => true
  | _ => false

/-- Store-level `typeof value === 'object'` (true for `null` in JavaScript). -/
def typeofIsObjectN : Node → Bool
  | .vnull => true
  | .arr _ => true
  | .plain _ => true
  | .immut _ => true
  | _ => false

/-- Store-level `Array.isArray(value)`. -/
def isArrayN : Node → Bool
  | .arr _ => true
  | _ => false

/-- Store-level `value === undefined`. -/
def isUndefN : Node → Bool
  | .undef => true
  | _ => false

/-- Modelled from the spec, store level: `mergeHelpers.isTerminal` (spec
§4.1) — terminal iff not a mapping. -/
def isTerminalN : Node → Bool
  | .plain _ => false
  | .immut _ => false
  | _ => true

/-- `isTerminalN` read through an address (a dangling address, which no
JavaScript run produces, counts terminal). -/
def isTerminalAt (h : Heap) (a : Addr) : Bool :=
  match h[a]? with
  | some n => isTerminalN n
  | none => true

/-- Own enumerable fields of the node at an address. -/
def hEntriesAt (h : Heap) (a : Addr) : List (String × Addr) :=
  match h[a]? with
  | some n => entriesN n
  | none => []

/-- Modelled from the spec, store level: one step of
`ImmutableValue.mergeAllPropertiesInto` — assign each field of the mapping
source, in iteration order, into the target field list (field values are
carried by address: merging copies references, not sub-trees). -/
def hMergeInto (target : List (String × Addr)) (source : Node) :
    List (String × Addr) :=
  (entriesN source).foldl (fun t kv => jsAssign t kv.1 kv.2) target

/-- Embeds the second loop of `_setDeep` (lines 163-171) at store level. -/
def hAppendNewKeys (total : List (String × Addr)) (no np : Node) :
    List (String × Addr) :=
  (entriesN np).foldl
    (fun t kv =>
      if (olookup (entriesN no) kv.1).isSome then t
      else
        match olookup (entriesN np) kv.1 with
        | some a => jsAssign t kv.1 a
        | none => t)
    total

mutual

/-- Embeds `_setDeep` (lines 146-178) at store level.  `fuel` is a step
budget bounding the recursion (the JavaScript recursion is bounded by the
acyclic object graph; a cyclic or too-deep input exhausts the budget with
`outOfFuel`).  On success the result node is allocated fresh; the immutable
wrap mirrors the `new ImmutableObject(totalNewFields)` constructor merge. -/
def hSetDeepRec : Nat → Heap → Addr → Addr → Except MergeError (Heap × Addr)
  | 0, _, _, _ => .error .outOfFuel
  | fuel + 1, h, obj, put =>
    match h[obj]?, h[put]? with
    | some no, some np =>
      if isTerminalN no || isTerminalN np then .error .invalidArgument
      else
        match hMergeLoop fuel h [] (entriesN no) np with
        | .error e => .error e
        | .ok (h1, merged) =>
          let totalNewFields := hAppendNewKeys merged no np
          if isImmutN no || isImmutN np then
            .ok (alloc h1 (Node.immut (hMergeInto [] (Node.plain totalNewFields))))
          else
            .ok (alloc h1 (Node.plain totalNewFields))
    | _, _ => .error .invalidArgument

/-- Embeds the first loop of `_setDeep` (lines 150-161) at store level,
threading the heap through the recursive calls.  Carried and terminal-taken
field values are copied by address (structural sharing). -/
def hMergeLoop : Nat → Heap → List (String × Addr) →
    List (String × Addr) → Node → Except MergeError (Heap × List (String × Addr))
  | 0, _, _, _, _ => .error .outOfFuel
  | _ + 1, h, total, [], _ => .ok (h, total)
  | fuel + 1, h, total, (key, bval) :: rest, np =>
    match olookup (entriesN np) key with
    | none => hMergeLoop fuel h (jsAssign total key bval) rest np
    | some pval =>
      if isTerminalAt h bval || isTerminalAt h pval then
        hMergeLoop fuel h (jsAssign total key pval) rest np
      else
        match hSetDeepRec fuel h bval pval with
        | .error e => .error e
        | .ok (h1, r) => hMergeLoop fuel h1 (jsAssign total key r) rest np

end

/-- Embeds `ImmutableObject.set` (lines 78-85) at store level. -/
def hSet (h : Heap) (immutable put : Addr) : Except MergeError (Heap × Addr) :=
  match h[immutable]? with
  | some (Node.immut bents) =>
    match h[put]? with
    | some np =>
      if typeofIsObjectN np && !isUndefN np && !isArrayN np then
        .ok (alloc h (Node.immut (hMergeInto (hMergeInto [] (Node.immut bents)) np)))
      else .error .invalidPatch
    | none => .error .invalidPatch
  | _ => .error .notImmutable

/-- Embeds `ImmutableObject.setProperty` (lines 96-100) at store level: the
one-field patch object is allocated, then `set` runs on it. -/
def hSetProperty (h : Heap) (immutableObject : Addr) (fieldName : String)
    (putField : Addr) : Except MergeError (Heap × Addr) :=
  let hp := alloc h (Node.plain [(fieldName, putField)])
  hSet hp.1 immutableObject hp.2

/-- Embeds `ImmutableObject.deleteProperty` (lines 110-118) at store level:
field values of the copy are carried by address. -/
def hDeleteProperty (h : Heap) (immutableObject : Addr)
    (droppedField : String) : Heap × Addr :=
  let copy := (hEntriesAt h immutableObject).foldl
    (fun c kv => if kv.1 ≠ droppedField then jsAssign c kv.1 kv.2 else c) []
  alloc h (Node.immut (hMergeInto [] (Node.plain copy)))

/-- Embeds `ImmutableObject.setDeep` (lines 130-133) at store level. -/
def hSetDeep (fuel : Nat) (h : Heap) (immutable put : Addr) :
    Except MergeError (Heap × Addr) :=
  match h[immutable]? with
  | some (Node.immut _) => hSetDeepRec fuel h immutable put
  | _ => .error .notImmutable

/-! ### Lemmas on the association-list primitives -/

theorem objKeys_cons {α : Type} (kv : String × α) (l : List (String × α)) :
    objKeys (kv :: l) = kv.1 :: objKeys l := rfl

theorem objKeys_append {α : Type} (l₁ l₂ : List (String × α)) :
    objKeys (l₁ ++ l₂) = objKeys l₁ ++ objKeys l₂ := by
  simp [objKeys]

theorem olookup_eq_none_iff {α : Type} {l : List (String × α)} {k : String} :
    olookup l k = none ↔ k ∉ objKeys l := by
  induction l with
  | nil => simp [olookup, objKeys]
  | cons kv rest ih =>
    obtain ⟨k', v⟩ := kv
    by_cases h : k' = k
    · subst h
      simp [olookup, objKeys]
    · rw [objKeys_cons]
      simp only [olookup, if_neg h, List.mem_cons]
      rw [ih]
      constructor
      · rintro hn (he | hm)
        · exact h he.symm
        · exact hn hm
      · exact fun hn hm => hn (Or.inr hm)

theorem olookup_isSome_iff {α : Type} {l : List (String × α)} {k : String} :
    (olookup l k).isSome = true ↔ k ∈ objKeys l := by
  rw [Option.isSome_iff_ne_none]
  exact not_iff_not.mpr olookup_eq_none_iff |>.trans not_not

theorem olookup_append {α : Type} (l₁ l₂ : List (String × α)) (k : String) :
    olookup (l₁ ++ l₂) k = (olookup l₁ k).or (olookup l₂ k) := by
  induction l₁ with
  | nil => simp [olookup]
  | cons kv rest ih =>
    by_cases h : kv.1 = k <;> simp [olookup, h, ih]

theorem olookup_mem_nodup {α : Type} {l : List (String × α)}
    (hn : (objKeys l).Nodup) {kv : String × α} (hm : kv ∈ l) :
    olookup l kv.1 = some kv.2 := by
  induction l with
  | nil => cases hm
  | cons kv' rest ih =>
    rw [objKeys_cons, List.nodup_cons] at hn
    rcases List.mem_cons.mp hm with h | h
    · subst h; simp [olookup]
    · have hne : kv'.1 ≠ kv.1 := by
        intro he
        exact hn.1 (he ▸ (List.mem_map.mpr ⟨kv, h, rfl⟩))
      simp [olookup, hne, ih hn.2 h]

theorem jsAssign_of_not_mem {α : Type} {l : List (String × α)} {k : String}
    (h : k ∉ objKeys l) (v : α) : jsAssign l k v = l ++ [(k, v)] := by
  induction l with
  | nil => simp [jsAssign]
  | cons kv rest ih =>
    rw [objKeys_cons] at h
    have h1 : kv.1 ≠ k := fun he => h (he ▸ List.mem_cons_self _ _)
    have h2 : k ∉ objKeys rest := fun he => h (List.mem_cons_of_mem _ he)
    simp [jsAssign, h1, ih h2]

theorem olookup_jsAssign_self {α : Type} (l : List (String × α)) (k : String) (v : α) :
    olookup (jsAssign l k v) k = some v := by
  induction l with
  | nil => simp [jsAssign, olookup]
  | cons kv rest ih =>
    by_cases h : kv.1 = k <;> simp [jsAssign, olookup, h, ih]

theorem olookup_jsAssign_ne {α : Type} (l : List (String × α)) {k k' : String}
    (h : k' ≠ k) (v : α) : olookup (jsAssign l k' v) k = olookup l k := by
  induction l with
  | nil => simp [jsAssign, olookup, h]
  | cons kv rest ih =>
    by_cases h1 : kv.1 = k' <;> by_cases h2 : kv.1 = k <;>
      simp_all [jsAssign, olookup]

theorem map_update_of_not_mem {α : Type} {l : List (String × α)} {k : String}
    (h : k ∉ objKeys l) (v : α) :
    l.map (fun kv => if kv.1 = k then (kv.1, v) else kv) = l := by
  induction l with
  | nil => rfl
  | cons kv rest ih =>
    rw [objKeys_cons] at h
    have h1 : kv.1 ≠ k := fun he => h (he ▸ List.mem_cons_self _ _)
    have h2 : k ∉ objKeys rest := fun he => h (List.mem_cons_of_mem _ he)
    simp [h1, ih h2]

theorem jsAssign_mem_map {α : Type} {l : List (String × α)} {k : String}
    (hn : (objKeys l).Nodup) (hm : k ∈ objKeys l) (v : α) :
    jsAssign l k v = l.map (fun kv => if kv.1 = k then (kv.1, v) else kv) := by
  induction l with
  | nil => cases hm
  | cons kv rest ih =>
    rw [objKeys_cons, List.nodup_cons] at hn
    by_cases h : kv.1 = k
    · subst h
      simp [jsAssign, map_update_of_not_mem hn.1 v]
    · rcases List.mem_cons.mp hm with h' | h'
      · exact absurd h'.symm h
      · simp [jsAssign, h, ih hn.2 h']

theorem objKeys_map_update {α : Type} (l : List (String × α)) (k : String) (v : α) :
    objKeys (l.map (fun kv => if kv.1 = k then (kv.1, v) else kv)) = objKeys l := by
  induction l with
  | nil => rfl
  | cons kv rest ih =>
    by_cases h : kv.1 = k <;> simp [objKeys, h] <;>
      simpa [objKeys] using ih

theorem objKeys_filter_key {α : Type} (q : String → Bool) (l : List (String × α)) :
    objKeys (l.filter (fun kv => q kv.1)) = (objKeys l).filter q := by
  induction l with
  | nil => rfl
  | cons kv rest ih =>
    by_cases h : q kv.1 = true <;> simp [objKeys, List.filter_cons, h] <;>
      simpa [objKeys] using ih

theorem olookup_isNone_of_keys_eq {α β : Type} {l₁ : List (String × α)}
    {l₂ : List (String × β)} (h : objKeys l₁ = objKeys l₂) (k : String) :
    (olookup l₁ k).isNone = (olookup l₂ k).isNone := by
  rcases h1 : olookup l₁ k with _ | v₁ <;> rcases h2 : olookup l₂ k with _ | v₂ <;> simp
  · exact (olookup_eq_none_iff.mp h1)
      (h ▸ olookup_isSome_iff.mp (by simp [h2]))
  · exact (olookup_eq_none_iff.mp h2)
      (h ▸ olookup_isSome_iff.mp (by simp [h1]))

theorem nodup_keys_append_singleton {α : Type} {l : List (String × α)} {k : String}
    (hn : (objKeys l).Nodup) (hk : k ∉ objKeys l) (v : α) :
    (objKeys (l ++ [(k, v)])).Nodup := by
  rw [objKeys_append]
  refine List.Nodup.append hn (by simp [objKeys]) ?_
  intro x hx hx'
  simp only [objKeys, List.map_cons, List.map_nil, List.mem_singleton] at hx'
  exact hk (hx' ▸ hx)

/-- The key lemma for shallow merge: folding JavaScript property assignment
of the patch entries over a base field list overlays values in place (base
keys keep base order) and appends patch-only keys in patch order. -/
theorem foldl_jsAssign_overlay {α : Type} :
    ∀ (pents bents : List (String × α)), (objKeys bents).Nodup →
      (objKeys pents).Nodup →
      pents.foldl (fun t kv => jsAssign t kv.1 kv.2) bents =
        bents.map (fun kv => (kv.1, (olookup pents kv.1).getD kv.2)) ++
          pents.filter (fun kv => (olookup bents kv.1).isNone)
  | [], bents, _, _ => by
    simp [olookup]
  | (k, v) :: rest, bents, hb, hp => by
    rw [objKeys_cons, List.nodup_cons] at hp
    have hkrest : k ∉ objKeys rest := hp.1
    have hrest : (objKeys rest).Nodup := hp.2
    rw [List.foldl_cons]
    by_cases hk : k ∈ objKeys bents
    · rw [show jsAssign bents k v =
          bents.map (fun kv => if kv.1 = k then (kv.1, v) else kv) from
          jsAssign_mem_map hb hk v]
      rw [foldl_jsAssign_overlay rest _
          (by rw [objKeys_map_update]; exact hb) hrest]
      rw [List.map_map]
      congr 1
      · refine List.map_congr_left ?_
        intro kv _
        by_cases hkv : kv.1 = k
        · simp [Function.comp, hkv, olookup,
            olookup_eq_none_iff.mpr hkrest]
        · have hne' : ¬k = kv.1 := fun he => hkv he.symm
          simp [Function.comp, hkv, olookup, hne']
      · rw [List.filter_cons]
        have hbk : (olookup bents k).isNone = false := by
          have := olookup_isSome_iff.mpr hk
          rcases h : olookup bents k with _ | w
          · rw [h] at this; simp at this
          · simp
        rw [if_neg (by simp [hbk])]
        refine List.filter_congr ?_
        intro kv hkv
        exact olookup_isNone_of_keys_eq (objKeys_map_update bents k v) kv.1
    · rw [jsAssign_of_not_mem hk v]
      rw [foldl_jsAssign_overlay rest _
          (nodup_keys_append_singleton hb hk v) hrest]
      rw [List.map_append, List.filter_cons]
      have hbk : (olookup bents k).isNone = true := by
        rw [olookup_eq_none_iff.mpr hk]; rfl
      rw [if_pos (by simp [hbk])]
      have hmap : bents.map
          (fun kv => (kv.1, (olookup rest kv.1).getD kv.2)) =
          bents.map (fun kv => (kv.1, (olookup ((k, v) :: rest) kv.1).getD kv.2)) := by
        refine List.map_congr_left ?_
        intro kv hkv
        have hne : kv.1 ≠ k := by
          intro he
          exact hk (he ▸ List.mem_map.mpr ⟨kv, hkv, rfl⟩)
        have hne' : ¬k = kv.1 := fun he => hne he.symm
        simp [olookup, hne']
      have hfil : rest.filter
          (fun kv => (olookup (bents ++ [(k, v)]) kv.1).isNone) =
          rest.filter (fun kv => (olookup bents kv.1).isNone) := by
        refine List.filter_congr ?_
        intro kv hkv
        have hne : kv.1 ≠ k := by
          intro he
          exact hkrest (he ▸ List.mem_map.mpr ⟨kv, hkv, rfl⟩)
        rw [olookup_append]
        rcases h : olookup bents kv.1 with _ | w
        · have hne' : ¬k = kv.1 := fun he => hne he.symm
          simp [olookup, hne']
        · simp
      rw [hmap, hfil]
      simp [olookup, olookup_eq_none_iff.mpr hkrest]

theorem foldl_jsAssign_nil {α : Type} (pents : List (String × α))
    (h : (objKeys pents).Nodup) :
    pents.foldl (fun t kv => jsAssign t kv.1 kv.2) [] = pents := by
  rw [foldl_jsAssign_overlay pents [] (by simp [objKeys]) h]
  simp [olookup]

theorem olookup_append_left {α : Type} {l₁ : List (String × α)}
    (l₂ : List (String × α)) {k : String} {a : α} (h : olookup l₁ k = some a) :
    olookup (l₁ ++ l₂) k = some a := by
  rw [olookup_append, h]; rfl

/-- Folding a guarded assignment (skip when `q` holds of the key) appends, in
order, exactly the entries whose key fails `q`, provided keys are unique and
fresh for the accumulator. -/
theorem foldl_guard_assign {α : Type} (q : String → Bool) :
    ∀ (pents total : List (String × α)),
      (objKeys pents).Nodup →
      (∀ kv ∈ pents, q kv.1 = false → olookup total kv.1 = none) →
      pents.foldl (fun t kv => if q kv.1 then t else jsAssign t kv.1 kv.2) total =
        total ++ pents.filter (fun kv => !q kv.1)
  | [], total, _, _ => by simp
  | kv :: rest, total, hn, hdisj => by
    rw [objKeys_cons, List.nodup_cons] at hn
    rw [List.foldl_cons, List.filter_cons]
    by_cases hq : q kv.1 = true
    · rw [if_pos hq, if_neg (by simp [hq])]
      exact foldl_guard_assign q rest total hn.2
        (fun kv' h' hq' => hdisj kv' (List.mem_cons_of_mem _ h') hq')
    · have hq0 : q kv.1 = false := by simpa using hq
      rw [if_neg hq, if_pos (by simp [hq0])]
      have hnone : olookup total kv.1 = none :=
        hdisj kv (List.mem_cons_self _ _) hq0
      rw [show jsAssign total kv.1 kv.2 = total ++ [(kv.1, kv.2)] from
        jsAssign_of_not_mem (olookup_eq_none_iff.mp hnone) kv.2]
      rw [foldl_guard_assign q rest (total ++ [(kv.1, kv.2)]) hn.2 ?_]
      · simp
      · intro kv' h' hq''
        rw [olookup_append, hdisj kv' (List.mem_cons_of_mem _ h') hq'']
        have hne : kv'.1 ≠ kv.1 := by
          intro he; exact hn.1 (he ▸ List.mem_map.mpr ⟨kv', h', rfl⟩)
        have hne' : ¬kv.1 = kv'.1 := fun he => hne he.symm
        simp [olookup, hne']

theorem mergeRow_key {put : JSValue} {kv x : String × JSValue}
    (h : mergeRow put kv = .ok x) : x.1 = kv.1 := by
  unfold mergeRow at h
  by_cases h1 : hasOwnV put kv.1 = false
  · rw [if_pos h1] at h; cases h; rfl
  · rw [if_neg h1] at h
    by_cases h2 : (isTerminal kv.2 || isTerminal (jsGetV put kv.1)) = true
    · rw [if_pos h2] at h; cases h; rfl
    · rw [if_neg h2] at h
      rcases hs : _setDeep kv.2 (jsGetV put kv.1) with e | r <;> rw [hs] at h
      · cases h
      · cases h; rfl

theorem rowsM_ok_forall₂ {put : JSValue} :
    ∀ {bents rows : List (String × JSValue)}, rowsM put bents = .ok rows →
      List.Forall₂ (fun kv x => mergeRow put kv = .ok x) bents rows := by
  intro bents
  induction bents with
  | nil => intro rows h; cases h; exact List.Forall₂.nil
  | cons kv rest ih =>
    intro rows h
    unfold rowsM at h
    rcases hr : mergeRow put kv with e | x <;> rw [hr] at h
    · cases h
    · rcases hrest : rowsM put rest with e | l <;> rw [hrest] at h
      · cases h
      · cases h
        exact List.Forall₂.cons hr (ih hrest)

theorem forall₂_keys {α β : Type} {R : (String × α) → (String × β) → Prop}
    (hR : ∀ kv x, R kv x → x.1 = kv.1) :
    ∀ {l₁ : List (String × α)} {l₂ : List (String × β)},
      List.Forall₂ R l₁ l₂ → objKeys l₂ = objKeys l₁ := by
  intro l₁ l₂ h
  induction h with
  | nil => rfl
  | cons hrel _ ih =>
    rw [objKeys_cons, objKeys_cons, ih, hR _ _ hrel]

theorem forall₂_olookup {α β : Type} {R : (String × α) → (String × β) → Prop}
    (hR : ∀ kv x, R kv x → x.1 = kv.1) :
    ∀ {l₁ : List (String × α)} {l₂ : List (String × β)},
      List.Forall₂ R l₁ l₂ → ∀ {k : String} {a : α}, olookup l₁ k = some a →
        ∃ b, olookup l₂ k = some b ∧ R (k, a) (k, b) := by
  intro l₁ l₂ h
  induction h with
  | nil => intro k a h'; cases h'
  | @cons kv x rest₁ rest₂ hrel htail ih =>
    intro k a h'
    have hx1 : x.1 = kv.1 := hR _ _ hrel
    by_cases hk : kv.1 = k
    · rw [show olookup (kv :: rest₁) k = some kv.2 from by
        simp [olookup, hk]] at h'
      cases h'
      refine ⟨x.2, ?_, ?_⟩
      · simp [olookup, hx1, hk]
      · have h1 : (k, kv.2) = kv := by
          obtain ⟨k1, v1⟩ := kv
          simp only at hk ⊢
          rw [hk]
        have h2 : (k, x.2) = x := by
          obtain ⟨k2, v2⟩ := x
          simp only at hx1 ⊢
          rw [hx1, hk]
        rw [h1, h2]
        exact hrel
    · rw [show olookup (kv :: rest₁) k = olookup rest₁ k from by
        simp [olookup, hk]] at h'
      obtain ⟨b, hb, hrb⟩ := ih h'
      refine ⟨b, ?_, hrb⟩
      have hxk : ¬x.1 = k := by rw [hx1]; exact hk
      simp [olookup, hxk, hb]

theorem mergeBaseEntries_eq_rowsM :
    ∀ (bents total : List (String × JSValue)) (put : JSValue),
      (∀ k, k ∈ objKeys bents → olookup total k = none) →
      (objKeys bents).Nodup →
      mergeBaseEntries total bents put =
        (rowsM put bents).map (fun l => total ++ l)
  | [], total, put, _, _ => by
    simp [mergeBaseEntries, rowsM, Except.map]
  | (key, bval) :: rest, total, put, hdisj, hn => by
    rw [objKeys_cons, List.nodup_cons] at hn
    have hkey : olookup total key = none :=
      hdisj key (List.mem_cons_self _ _)
    have hassign : ∀ x : JSValue, jsAssign total key x = total ++ [(key, x)] :=
      fun x => jsAssign_of_not_mem (olookup_eq_none_iff.mp hkey) x
    have hdisj' : ∀ (x : JSValue), ∀ k ∈ objKeys rest,
        olookup (total ++ [(key, x)]) k = none := by
      intro x k hk
      rw [olookup_append, hdisj k (List.mem_cons_of_mem _ hk)]
      have hne : ¬key = k := fun he => hn.1 (he ▸ hk)
      simp [olookup, hne]
    simp only [mergeBaseEntries, rowsM]
    by_cases h1 : hasOwnV put key = false
    · rw [if_pos h1]
      rw [show mergeRow put (key, bval) = .ok (key, bval) from by
        simp [mergeRow, h1]]
      rw [hassign bval,
        mergeBaseEntries_eq_rowsM rest (total ++ [(key, bval)]) put (hdisj' bval) hn.2]
      rcases hrest : rowsM put rest with e | l <;> simp [hrest, Except.map]
    · rw [if_neg h1]
      by_cases h2 : (isTerminal bval || isTerminal (jsGetV put key)) = true
      · rw [if_pos h2]
        rw [show mergeRow put (key, bval) = .ok (key, jsGetV put key) from by
          simp only [mergeRow]
          rw [if_neg h1, if_pos h2]]
        rw [hassign (jsGetV put key),
          mergeBaseEntries_eq_rowsM rest _ put (hdisj' _) hn.2]
        rcases hrest : rowsM put rest with e | l <;> simp [hrest, Except.map]
      · rw [if_neg h2]
        rcases hs : _setDeep bval (jsGetV put key) with e | r
        · rw [show mergeRow put (key, bval) = .error e from by
            simp only [mergeRow]
            rw [if_neg h1, if_neg h2, hs]]
          simp [Except.map]
        · rw [show mergeRow put (key, bval) = .ok (key, r) from by
            simp only [mergeRow]
            rw [if_neg h1, if_neg h2, hs]]
          simp only [hassign r,
            mergeBaseEntries_eq_rowsM rest (total ++ [(key, r)]) put (hdisj' _) hn.2]
          rcases hrest : rowsM put rest with e | l <;> simp [hrest, Except.map]

theorem jsOwnEntries_newImmutableObject_plain (total : List (String × JSValue))
    (hn : (objKeys total).Nodup) :
    jsOwnEntries (newImmutableObject [JSValue.plain total]) = total := by
  simp [newImmutableObject, mergeInto, jsOwnEntries, foldl_jsAssign_nil total hn]

/-- The body of `_setDeep` on a mapping pair, as one equation. -/
theorem _setDeep_eq_on_mapping (o p : JSValue) (ho : isTerminal o = false)
    (hp : isTerminal p = false) :
    _setDeep o p = (mergeBaseEntries [] (jsOwnEntries o) p).map (fun merged =>
      if isImmutableValue o || isImmutableValue p then
        newImmutableObject [JSValue.plain (appendNewKeys merged o p)]
      else JSValue.plain (appendNewKeys merged o p)) := by
  have hcheck : checkMergeObjectArgs o p = .ok () := by
    simp [checkMergeObjectArgs, ho, hp]
  cases o with
  | prim n => simp [isTerminal] at ho
  | vnull => simp [isTerminal] at ho
  | undef => simp [isTerminal] at ho
  | arr l => simp [isTerminal] at ho
  | plain bents =>
    simp only [_setDeep, hcheck]
    rcases hm : mergeBaseEntries [] bents (p) with e | merged <;>
      simp [hm, Except.map, isImmutableValue, jsOwnEntries]
  | immut bents =>
    simp only [_setDeep, hcheck]
    rcases hm : mergeBaseEntries [] bents (p) with e | merged <;>
      simp [hm, Except.map, isImmutableValue, jsOwnEntries]

theorem appendNewKeys_char {rows : List (String × JSValue)} {o p : JSValue}
    (hpn : (objKeys (jsOwnEntries p)).Nodup)
    (hkeys : objKeys rows = objKeys (jsOwnEntries o)) :
    appendNewKeys rows o p =
      rows ++ (jsOwnEntries p).filter (fun kv => !hasOwnV o kv.1) := by
  unfold appendNewKeys
  have hext : (jsOwnEntries p).foldl
      (fun t kv => if hasOwnV o kv.1 then t else jsAssign t kv.1 (jsGetV p kv.1)) rows =
      (jsOwnEntries p).foldl
      (fun t kv => if hasOwnV o kv.1 then t else jsAssign t kv.1 kv.2) rows := by
    refine List.foldl_ext _ _ rows ?_
    intro t kv hkv
    rw [show jsGetV p kv.1 = kv.2 from by
      unfold jsGetV
      rw [olookup_mem_nodup hpn hkv]
      rfl]
  rw [hext, foldl_guard_assign _ _ _ hpn ?_]
  intro kv hkv hq
  rw [olookup_eq_none_iff, hkeys]
  intro hmem
  unfold hasOwnV at hq
  simp [olookup_isSome_iff.mpr hmem] at hq

theorem totalKeys_nodup {rows : List (String × JSValue)} {o p : JSValue}
    (hbn : (objKeys (jsOwnEntries o)).Nodup)
    (hpn : (objKeys (jsOwnEntries p)).Nodup)
    (hkeys : objKeys rows = objKeys (jsOwnEntries o)) :
    (objKeys (rows ++ (jsOwnEntries p).filter (fun kv => !hasOwnV o kv.1))).Nodup := by
  rw [objKeys_append, objKeys_filter_key (fun k => !hasOwnV o k) (jsOwnEntries p)]
  refine List.Nodup.append (hkeys ▸ hbn) (List.Nodup.filter _ hpn) ?_
  intro k hk1 hk2
  rw [hkeys] at hk1
  rw [List.mem_filter] at hk2
  have hnone : olookup (jsOwnEntries o) k = none := by
    have h2 := hk2.2
    unfold hasOwnV at h2
    rcases hh : olookup (jsOwnEntries o) k with _ | w
    · rfl
    · rw [hh] at h2; simp at h2
  exact (olookup_eq_none_iff.mp hnone) hk1

/-- Characterization of a successful `_setDeep` on a mapping pair: the result
fields are the merged rows of the base entries in base order, followed by the
patch-only entries in patch order. -/
theorem _setDeep_ok_char {o p r : JSValue} (ho : isTerminal o = false)
    (hp : isTerminal p = false)
    (hbn : (objKeys (jsOwnEntries o)).Nodup)
    (hpn : (objKeys (jsOwnEntries p)).Nodup)
    (h : _setDeep o p = .ok r) :
    ∃ rows, List.Forall₂ (fun kv x => mergeRow p kv = .ok x) (jsOwnEntries o) rows ∧
      jsOwnEntries r = rows ++ (jsOwnEntries p).filter (fun kv => !hasOwnV o kv.1) := by
  rw [_setDeep_eq_on_mapping o p ho hp,
    mergeBaseEntries_eq_rowsM (jsOwnEntries o) [] p (fun k _ => rfl) hbn] at h
  rcases hr : rowsM p (jsOwnEntries o) with e | rows <;> rw [hr] at h
  · simp [Except.map] at h
  · simp only [Except.map, List.nil_append] at h
    have hf₂ := rowsM_ok_forall₂ hr
    have hkeys : objKeys rows = objKeys (jsOwnEntries o) :=
      forall₂_keys (fun _ _ hx => mergeRow_key hx) hf₂
    refine ⟨rows, hf₂, ?_⟩
    rw [appendNewKeys_char hpn hkeys] at h
    have hnod := totalKeys_nodup hbn hpn hkeys
    by_cases hio : (isImmutableValue o || isImmutableValue p) = true
    · rw [if_pos hio] at h
      injection h with h'
      rw [← h', jsOwnEntries_newImmutableObject_plain _ hnod]
    · rw [if_neg hio] at h
      injection h with h'
      rw [← h']
      rfl

/-! ### Lemmas on the store embedding -/

theorem forall₂_flip_eq {α : Type} :
    ∀ {l₁ l₂ : List α}, List.Forall₂ (fun a b => b = a) l₁ l₂ → l₂ = l₁ := by
  intro l₁ l₂ h
  induction h with
  | nil => rfl
  | cons hr _ ih => rw [hr, ih]

theorem getElem?_append_lt {α : Type} (l₁ l₂ : List α) {n : Nat}
    (h : n < l₁.length) : (l₁ ++ l₂)[n]? = l₁[n]? := by
  rw [List.getElem?_append, if_pos h]

theorem hSet_ok_shape {h : Heap} {b p : Addr} {h' : Heap} {r : Addr}
    (hs : hSet h b p = .ok (h', r)) :
    r = h.length ∧ b < h.length ∧ ∃ n, h' = h ++ [n] := by
  have hblt : b < h.length := by
    by_contra hge
    have hle : h.length ≤ b := Nat.le_of_not_lt hge
    have hnone : h[b]? = none := List.getElem?_eq_none hle
    unfold hSet at hs
    rw [hnone] at hs
    cases hs
  unfold hSet at hs
  split at hs
  · split at hs
    · split at hs
      · unfold alloc at hs
        cases hs
        exact ⟨rfl, hblt, _, rfl⟩
      · cases hs
    · cases hs
  · cases hs

theorem heap_extends (fuel : Nat) :
    (∀ h o p h' r, hSetDeepRec fuel h o p = .ok (h', r) → ∃ ext, h' = h ++ ext) ∧
    (∀ h total bents np h' l, hMergeLoop fuel h total bents np = .ok (h', l) →
      ∃ ext, h' = h ++ ext) := by
  induction fuel with
  | zero =>
    constructor
    · intro h o p h' r hs; cases hs
    · intro h total bents np h' l hs; cases hs
  | succ fuel ih =>
    constructor
    · intro h o p h' r hs
      simp only [hSetDeepRec] at hs
      split at hs
      · split at hs
        · cases hs
        · split at hs
          · cases hs
          · split at hs
            · unfold alloc at hs
              cases hs
              obtain ⟨ext1, rfl⟩ := ih.2 _ _ _ _ _ _ (by assumption)
              exact ⟨ext1 ++ [_], by rw [List.append_assoc]⟩
            · unfold alloc at hs
              cases hs
              obtain ⟨ext1, rfl⟩ := ih.2 _ _ _ _ _ _ (by assumption)
              exact ⟨ext1 ++ [_], by rw [List.append_assoc]⟩
      · cases hs
    · intro h total bents np h' l hs
      cases bents with
      | nil =>
        simp only [hMergeLoop] at hs
        cases hs
        exact ⟨[], by simp⟩
      | cons kv rest =>
        obtain ⟨key, bval⟩ := kv
        simp only [hMergeLoop] at hs
        split at hs
        · exact ih.2 _ _ _ _ _ _ hs
        · split at hs
          · exact ih.2 _ _ _ _ _ _ hs
          · split at hs
            · cases hs
            · obtain ⟨ext1, rfl⟩ := ih.1 _ _ _ _ _ (by assumption)
              obtain ⟨ext2, hh⟩ := ih.2 _ _ _ _ _ _ hs
              exact ⟨ext1 ++ ext2, by rw [hh, List.append_assoc]⟩

theorem hMergeLoop_ok_char :
    ∀ (bents : List (String × Addr)) (fuel : Nat) (h : Heap)
      (total : List (String × Addr)) (np : Node) (h' : Heap)
      (l : List (String × Addr)),
      hMergeLoop fuel h total bents np = .ok (h', l) →
      (∀ k, k ∈ objKeys bents → olookup total k = none) →
      (objKeys bents).Nodup →
      ∃ rows, l = total ++ rows ∧
        List.Forall₂ (fun kv x => x.1 = kv.1 ∧
          (olookup (entriesN np) kv.1 = none → x = kv)) bents rows := by
  intro bents
  induction bents with
  | nil =>
    intro fuel h total np h' l hs _ _
    cases fuel with
    | zero => cases hs
    | succ fuel =>
      simp only [hMergeLoop] at hs
      cases hs
      exact ⟨[], by simp, List.Forall₂.nil⟩
  | cons kv rest ih =>
    intro fuel h total np h' l hs hdisj hn
    obtain ⟨key, bval⟩ := kv
    rw [objKeys_cons, List.nodup_cons] at hn
    have hkey : olookup total key = none := hdisj key (List.mem_cons_self _ _)
    have hassign : ∀ x : Addr, jsAssign total key x = total ++ [(key, x)] :=
      fun x => jsAssign_of_not_mem (olookup_eq_none_iff.mp hkey) x
    have hdisj' : ∀ (x : Addr), ∀ k ∈ objKeys rest,
        olookup (total ++ [(key, x)]) k = none := by
      intro x k hk
      rw [olookup_append, hdisj k (List.mem_cons_of_mem _ hk)]
      have hne : ¬key = k := fun he => hn.1 (he ▸ hk)
      simp [olookup, hne]
    cases fuel with
    | zero => cases hs
    | succ fuel =>
      simp only [hMergeLoop] at hs
      split at hs
      · rename_i hk
        rw [hassign bval] at hs
        obtain ⟨rows, rfl, hf⟩ := ih fuel h _ np h' l hs (hdisj' bval) hn.2
        exact ⟨(key, bval) :: rows, by simp, List.Forall₂.cons ⟨rfl, fun _ => rfl⟩ hf⟩
      · split at hs
        · rename_i pval hk ht
          rw [hassign pval] at hs
          obtain ⟨rows, rfl, hf⟩ := ih fuel h _ np h' l hs (hdisj' pval) hn.2
          refine ⟨(key, pval) :: rows, by simp, List.Forall₂.cons ⟨rfl, ?_⟩ hf⟩
          intro hnone
          have hnone' : olookup (entriesN np) key = none := hnone
          rw [hk] at hnone'
          cases hnone'
        · split at hs
          · cases hs
          · rename_i h1 rv hd
            rw [hassign rv] at hs
            obtain ⟨rows, rfl, hf⟩ := ih fuel h1 _ np h' l hs (hdisj' rv) hn.2
            refine ⟨(key, rv) :: rows, by simp, List.Forall₂.cons ⟨rfl, ?_⟩ hf⟩
            intro hnone
            obtain ⟨v, hkeq⟩ : ∃ v, olookup (entriesN np) key = some v :=
              ⟨_, by assumption⟩
            have hnone' : olookup (entriesN np) key = none := hnone
            rw [hkeq] at hnone'
            cases hnone'

theorem hAppendNewKeys_char {rows : List (String × Addr)} {no np : Node}
    (hpn : (objKeys (entriesN np)).Nodup)
    (hkeys : objKeys rows = objKeys (entriesN no)) :
    hAppendNewKeys rows no np =
      rows ++ (entriesN np).filter (fun kv => !(olookup (entriesN no) kv.1).isSome) := by
  unfold hAppendNewKeys
  have hext : (entriesN np).foldl
      (fun t kv =>
        if (olookup (entriesN no) kv.1).isSome then t
        else
          match olookup (entriesN np) kv.1 with
          | some a => jsAssign t kv.1 a
          | none => t) rows =
      (entriesN np).foldl
      (fun t kv => if (olookup (entriesN no) kv.1).isSome then t
        else jsAssign t kv.1 kv.2) rows := by
    refine List.foldl_ext _ _ rows ?_
    intro t kv hkv
    rw [olookup_mem_nodup hpn hkv]
  rw [hext, foldl_guard_assign (fun k => (olookup (entriesN no) k).isSome)
    (entriesN np) rows hpn ?_]
  intro kv hkv hq
  rw [olookup_eq_none_iff, hkeys]
  intro hmem
  simp [olookup_isSome_iff.mpr hmem] at hq

theorem totalKeys_nodup_store {rows : List (String × Addr)} {no np : Node}
    (hbn : (objKeys (entriesN no)).Nodup) (hpn : (objKeys (entriesN np)).Nodup)
    (hkeys : objKeys rows = objKeys (entriesN no)) :
    (objKeys (rows ++
      (entriesN np).filter (fun kv => !(olookup (entriesN no) kv.1).isSome))).Nodup := by
  rw [objKeys_append,
    objKeys_filter_key (fun k => !(olookup (entriesN no) k).isSome) (entriesN np)]
  refine List.Nodup.append (hkeys ▸ hbn) (List.Nodup.filter _ hpn) ?_
  intro k hk1 hk2
  rw [hkeys] at hk1
  rw [List.mem_filter] at hk2
  have h2 := hk2.2
  simp [olookup_isSome_iff.mpr hk1] at h2

theorem forall₂_store_keys {np : Node} {bents rows : List (String × Addr)}
    (hf : List.Forall₂ (fun kv x => x.1 = kv.1 ∧
      (olookup (entriesN np) kv.1 = none → x = kv)) bents rows) :
    objKeys rows = objKeys bents :=
  forall₂_keys (fun _ _ hx => hx.1) hf

theorem hSetDeepRec_result {fuel : Nat} {h : Heap} {o p : Addr} {h' : Heap}
    {r : Addr} {no np : Node} (ho : h[o]? = some no) (hp : h[p]? = some np)
    (hbn : (objKeys (entriesN no)).Nodup) (hpn : (objKeys (entriesN np)).Nodup)
    (hs : hSetDeepRec fuel h o p = .ok (h', r)) :
    ∃ rows,
      List.Forall₂ (fun kv x => x.1 = kv.1 ∧
        (olookup (entriesN np) kv.1 = none → x = kv)) (entriesN no) rows ∧
      h'[r]? = some (if isImmutN no || isImmutN np then
          Node.immut (rows ++
            (entriesN np).filter (fun kv => !(olookup (entriesN no) kv.1).isSome))
        else Node.plain (rows ++
            (entriesN np).filter (fun kv => !(olookup (entriesN no) kv.1).isSome))) := by
  cases fuel with
  | zero => cases hs
  | succ fuel =>
    simp only [hSetDeepRec, ho, hp] at hs
    by_cases ht : (isTerminalN no || isTerminalN np) = true
    · rw [if_pos ht] at hs; cases hs
    · rw [if_neg ht] at hs
      rcases hm : hMergeLoop fuel h [] (entriesN no) np with e | pair
      · simp only [hm] at hs
        cases hs
      · obtain ⟨h1, merged⟩ := pair
        simp only [hm] at hs
        obtain ⟨merged, hmr, hf⟩ :=
          hMergeLoop_ok_char (entriesN no) fuel h [] np h1 merged hm
            (fun k _ => rfl) hbn
        rw [List.nil_append] at hmr
        subst hmr
        have hkeys : objKeys merged = objKeys (entriesN no) := forall₂_store_keys hf
        have happ : hAppendNewKeys merged no np =
            merged ++ (entriesN np).filter
              (fun kv => !(olookup (entriesN no) kv.1).isSome) :=
          hAppendNewKeys_char hpn hkeys
        have hnod := totalKeys_nodup_store hbn hpn hkeys
        refine ⟨merged, hf, ?_⟩
        by_cases hw : (isImmutN no || isImmutN np) = true
        · rw [if_pos hw] at hs
          rw [if_pos hw]
          unfold alloc at hs
          cases hs
          rw [happ]
          rw [show hMergeInto []
              (Node.plain (merged ++ (entriesN np).filter
                (fun kv => !(olookup (entriesN no) kv.1).isSome))) =
              merged ++ (entriesN np).filter
                (fun kv => !(olookup (entriesN no) kv.1).isSome) from by
            unfold hMergeInto entriesN
            exact foldl_jsAssign_nil _ hnod]
          exact List.getElem?_concat_length _ _
        · rw [if_neg hw] at hs
          rw [if_neg hw]
          unfold alloc at hs
          cases hs
          rw [happ]
          exact List.getElem?_concat_length _ _

/-! ### Remaining helpers for the claim theorems -/

theorem olookup_some_mem {α : Type} :
    ∀ {l : List (String × α)} {k : String} {v : α},
      olookup l k = some v → (k, v) ∈ l := by
  intro l
  induction l with
  | nil => intro k v h; cases h
  | cons kv rest ih =>
    intro k v h
    by_cases hk : kv.1 = k
    · rw [show olookup (kv :: rest) k = some kv.2 from by simp [olookup, hk]] at h
      cases h
      rw [show (k, kv.2) = kv from by
        obtain ⟨k1, v1⟩ := kv; simp only at hk ⊢; rw [hk]]
      exact List.mem_cons_self _ _
    · rw [show olookup (kv :: rest) k = olookup rest k from by simp [olookup, hk]] at h
      exact List.mem_cons_of_mem _ (ih h)

theorem foldl_guard_filter {α β : Type} (f : β → α → β) (p : α → Prop)
    [DecidablePred p] :
    ∀ (l : List α) (acc : β),
      l.foldl (fun c x => if p x then f c x else c) acc =
        (l.filter (fun x => decide (p x))).foldl f acc
  | [], acc => rfl
  | x :: rest, acc => by
    rw [List.foldl_cons, List.filter_cons]
    by_cases hp : p x
    · rw [if_pos hp, if_pos (by simp [hp]), List.foldl_cons]
      exact foldl_guard_filter f p rest (f acc x)
    · rw [if_neg hp, if_neg (by simp [hp])]
      exact foldl_guard_filter f p rest acc

theorem newImmutableObject_immut_plain (bents pents : List (String × JSValue))
    (hb : (objKeys bents).Nodup) (hp : (objKeys pents).Nodup) :
    newImmutableObject [JSValue.immut bents, JSValue.plain pents] =
      JSValue.immut
        (bents.map (fun kv => (kv.1, (olookup pents kv.1).getD kv.2)) ++
         pents.filter (fun kv => (olookup bents kv.1).isNone)) := by
  unfold newImmutableObject
  rw [List.foldl_cons, List.foldl_cons, List.foldl_nil]
  rw [show mergeInto [] (JSValue.immut bents) = bents from by
    simp only [mergeInto, jsOwnEntries]
    exact foldl_jsAssign_nil bents hb]
  simp only [mergeInto, jsOwnEntries]
  rw [foldl_jsAssign_overlay pents bents hb hp]

/-! ### Claim theorems -/

/-- C1: for every Immutable Value base and valid mapping patch, `set` returns
a new Immutable Value in which every key of the base keeps the base's
relative ordering (a key in both takes the patch's value, with no recursion),
and every patch-only key is appended after all base keys in patch iteration
order.  The store conjunct shows the result is a new, distinct instance. -/
theorem c1_shallow_merge_order :
    (∀ (bents pents : List (String × JSValue)), (objKeys bents).Nodup →
      (objKeys pents).Nodup →
      ImmutableObject.set (JSValue.immut bents) (JSValue.plain pents) =
        .ok (JSValue.immut
          (bents.map (fun kv => (kv.1, (olookup pents kv.1).getD kv.2)) ++
           pents.filter (fun kv => (olookup bents kv.1).isNone)))) ∧
    (∀ (h : Heap) (b pa : Addr) (h' : Heap) (r : Addr),
      hSet h b pa = .ok (h', r) → r ≠ b) := by
  constructor
  · intro bents pents hb hpn
    rw [show ImmutableObject.set (JSValue.immut bents) (JSValue.plain pents) =
        .ok (newImmutableObject [JSValue.immut bents, JSValue.plain pents]) from rfl]
    rw [newImmutableObject_immut_plain bents pents hb hpn]
  · intro h b pa h' r hs
    obtain ⟨hr, hblt, _⟩ := hSet_ok_shape hs
    intro he
    rw [he] at hr
    rw [hr] at hblt
    exact lt_irrefl _ hblt

theorem c1_witness :
    ImmutableObject.set
      (JSValue.immut [("a", JSValue.prim 1), ("b", JSValue.prim 2),
        ("c", JSValue.prim 3)])
      (JSValue.plain [("b", JSValue.prim 10), ("d", JSValue.prim 20)]) =
      .ok (JSValue.immut [("a", JSValue.prim 1), ("b", JSValue.prim 10),
        ("c", JSValue.prim 3), ("d", JSValue.prim 20)]) ∧
    (3 : Addr) ≠ 1 := by
  constructor
  · rw [c1_shallow_merge_order.1
      [("a", JSValue.prim 1), ("b", JSValue.prim 2), ("c", JSValue.prim 3)]
      [("b", JSValue.prim 10), ("d", JSValue.prim 20)]
      (by decide) (by decide)]
    rfl
  · exact c1_shallow_merge_order.2
      [Node.prim 1, Node.immut [("a", 0)], Node.plain []] 1 2
      [Node.prim 1, Node.immut [("a", 0)], Node.plain [],
        Node.immut [("a", 0)]] 3 rfl

/-- C2: the claim says `set` rejects null, undefined and array patches with
an `InvalidPatch`-class error.  The code's validation
`typeof put === 'object' && put !== undefined && !Array.isArray(put)` does
reject undefined and arrays, but accepts `null` (in JavaScript
`typeof null === 'object'`), so `set(B, null)` does not raise `InvalidPatch`
and instead returns a merged copy of the base. -/
theorem c2_null_patch_not_rejected :
    setPatchOk JSValue.vnull = true ∧
    ImmutableObject.set (JSValue.immut [("a", JSValue.prim 1)]) JSValue.vnull =
      .ok (JSValue.immut [("a", JSValue.prim 1)]) ∧
    ImmutableObject.set (JSValue.immut [("a", JSValue.prim 1)])
      (JSValue.arr [JSValue.prim 1, JSValue.prim 2]) = .error .invalidPatch ∧
    ImmutableObject.set (JSValue.immut [("a", JSValue.prim 1)]) JSValue.undef =
      .error .invalidPatch :=
  ⟨rfl, rfl, rfl, rfl⟩

/-- C10: merging an empty patch into an Immutable Value yields a new,
distinct Immutable Value with exactly the base's entries (keys in order and
the value at each key).  The store conjunct shows distinctness (a fresh
address) with the entries carried by reference. -/
theorem c10_empty_patch_identity :
    (∀ (bents : List (String × JSValue)), (objKeys bents).Nodup →
      ImmutableObject.set (JSValue.immut bents) (JSValue.plain []) =
        .ok (JSValue.immut bents)) ∧
    (∀ (h : Heap) (b pa : Addr) (h' : Heap) (r : Addr)
      (bents : List (String × Addr)), h[b]? = some (Node.immut bents) →
      h[pa]? = some (Node.plain []) → (objKeys bents).Nodup →
      hSet h b pa = .ok (h', r) →
      r ≠ b ∧ h'[r]? = some (Node.immut bents)) := by
  constructor
  · intro bents hb
    rw [show ImmutableObject.set (JSValue.immut bents) (JSValue.plain []) =
        .ok (newImmutableObject [JSValue.immut bents, JSValue.plain []]) from rfl]
    rw [newImmutableObject_immut_plain bents [] hb (by simp [objKeys])]
    simp [olookup]
  · intro h b pa h' r bents hb0 hp0 hn hs
    have hne : r ≠ b := by
      obtain ⟨hr, hblt, _⟩ := hSet_ok_shape hs
      intro he
      rw [he] at hr
      rw [hr] at hblt
      exact lt_irrefl _ hblt
    refine ⟨hne, ?_⟩
    simp only [hSet, hb0, hp0, typeofIsObjectN, isUndefN, isArrayN] at hs
    simp only [Bool.not_false, Bool.and_self, if_true] at hs
    unfold alloc at hs
    cases hs
    rw [show hMergeInto (hMergeInto [] (Node.immut bents)) (Node.plain []) =
        bents from by
      simp only [hMergeInto, entriesN, List.foldl_nil]
      exact foldl_jsAssign_nil bents hn]
    exact List.getElem?_concat_length _ _

theorem c10_witness :
    ImmutableObject.set (JSValue.immut [("a", JSValue.prim 1)])
      (JSValue.plain []) = .ok (JSValue.immut [("a", JSValue.prim 1)]) ∧
    ((3 : Addr) ≠ 1 ∧
      ([Node.prim 1, Node.immut [("a", 0)], Node.plain [],
        Node.immut [("a", 0)]] : Heap)[(3 : Addr)]? = some (Node.immut [("a", 0)])) := by
  constructor
  · exact c10_empty_patch_identity.1 [("a", JSValue.prim 1)] (by decide)
  · exact c10_empty_patch_identity.2
      [Node.prim 1, Node.immut [("a", 0)], Node.plain []] 1 2
      [Node.prim 1, Node.immut [("a", 0)], Node.plain [], Node.immut [("a", 0)]]
      3 [("a", 0)] rfl rfl (by decide) rfl

/-- C4: during deep merge, for a key present in both base and patch, if
either side's value is terminal the result at that key is exactly the
patch's value — a wholesale leaf replacement with no recursion; e.g.
merging patch with terminal 5 over a nested mapping yields the terminal. -/
theorem c4_terminal_replace :
    (∀ (bents pents : List (String × JSValue)) (k : String) (bv pv r : JSValue),
      (objKeys bents).Nodup → (objKeys pents).Nodup →
      olookup bents k = some bv → olookup pents k = some pv →
      (isTerminal bv || isTerminal pv) = true →
      ImmutableObject.setDeep (JSValue.immut bents) (JSValue.plain pents) = .ok r →
      olookup (jsOwnEntries r) k = some pv) ∧
    ImmutableObject.setDeep
      (JSValue.immut [("k", JSValue.plain [("m", JSValue.prim 1)])])
      (JSValue.plain [("k", JSValue.prim 5)]) =
      .ok (JSValue.immut [("k", JSValue.prim 5)]) := by
  constructor
  · intro bents pents k bv pv r hb hp hbk hpk hterm hsd0
    have hsd : _setDeep (JSValue.immut bents) (JSValue.plain pents) = .ok r := hsd0
    obtain ⟨rows, hf, hent⟩ := _setDeep_ok_char
      (show isTerminal (JSValue.immut bents) = false from rfl)
      (show isTerminal (JSValue.plain pents) = false from rfl) hb hp hsd
    have hown : hasOwnV (JSValue.plain pents) k = true := by
      simp [hasOwnV, jsOwnEntries, hpk]
    have hget : jsGetV (JSValue.plain pents) k = pv := by
      simp [jsGetV, jsOwnEntries, hpk]
    obtain ⟨xv, hxl, hxr⟩ := forall₂_olookup (fun _ _ hx => mergeRow_key hx) hf
      (show olookup (jsOwnEntries (JSValue.immut bents)) k = some bv from hbk)
    have hrow : mergeRow (JSValue.plain pents) (k, bv) = .ok (k, pv) := by
      simp [mergeRow, hown, hget, hterm]
    rw [hrow] at hxr
    injection hxr with h2
    injection h2 with _ h3
    rw [← h3] at hxl
    rw [hent]
    exact olookup_append_left _ hxl
  · simp [ImmutableObject.setDeep, _setDeep, mergeBaseEntries, appendNewKeys,
      checkMergeObjectArgs, isTerminal, hasOwnV, jsGetV, jsOwnEntries, olookup,
      jsAssign, newImmutableObject, mergeInto, isImmutableValue]

theorem c4_witness :
    olookup (jsOwnEntries (JSValue.immut [("k", JSValue.prim 5)])) "k" =
      some (JSValue.prim 5) :=
  c4_terminal_replace.1 [("k", JSValue.plain [("m", JSValue.prim 1)])]
    [("k", JSValue.prim 5)] "k" (JSValue.plain [("m", JSValue.prim 1)])
    (JSValue.prim 5) (JSValue.immut [("k", JSValue.prim 5)])
    (by decide) (by decide) rfl rfl rfl c4_terminal_replace.2

/-- C5: deep merge of two mapping-shaped values walks the base's keys in
order (recursing at keys present on both sides with non-terminal values),
then appends every patch-only key in patch order with the patch's value
verbatim; e.g. the nested example merges to inner key order m, n, p. -/
theorem c5_deep_recursive_merge :
    (∀ (bents pents : List (String × JSValue)) (r : JSValue),
      (objKeys bents).Nodup → (objKeys pents).Nodup →
      ImmutableObject.setDeep (JSValue.immut bents) (JSValue.plain pents) = .ok r →
      (objKeys (jsOwnEntries r) =
        objKeys bents ++
          (objKeys pents).filter (fun k => !(olookup bents k).isSome)) ∧
      (∀ (k : String) (pv : JSValue), olookup pents k = some pv →
        olookup bents k = none → olookup (jsOwnEntries r) k = some pv) ∧
      (∀ (k : String) (bv pv : JSValue), olookup bents k = some bv →
        olookup pents k = some pv → isTerminal bv = false →
        isTerminal pv = false →
        ∃ m, _setDeep bv pv = .ok m ∧ olookup (jsOwnEntries r) k = some m)) ∧
    ImmutableObject.setDeep
      (JSValue.immut [("k", JSValue.plain
        [("m", JSValue.prim 1), ("n", JSValue.prim 2)])])
      (JSValue.plain [("k", JSValue.plain
        [("n", JSValue.prim 9), ("p", JSValue.prim 3)])]) =
      .ok (JSValue.immut [("k", JSValue.plain
        [("m", JSValue.prim 1), ("n", JSValue.prim 9), ("p", JSValue.prim 3)])]) := by
  constructor
  · intro bents pents r hb hp hsd0
    have hsd : _setDeep (JSValue.immut bents) (JSValue.plain pents) = .ok r := hsd0
    obtain ⟨rows, hf, hent⟩ := _setDeep_ok_char
      (show isTerminal (JSValue.immut bents) = false from rfl)
      (show isTerminal (JSValue.plain pents) = false from rfl) hb hp hsd
    have hkeys : objKeys rows = objKeys bents :=
      forall₂_keys (fun _ _ hx => mergeRow_key hx) hf
    refine ⟨?_, ?_, ?_⟩
    · rw [hent, objKeys_append, hkeys,
        objKeys_filter_key (fun k0 => !hasOwnV (JSValue.immut bents) k0)
          (jsOwnEntries (JSValue.plain pents))]
      rfl
    · intro k pv hpk hbk
      rw [hent, olookup_append]
      rw [show olookup rows k = none from olookup_eq_none_iff.mpr (by
        rw [hkeys]; exact olookup_eq_none_iff.mp hbk)]
      have hmem : (k, pv) ∈ jsOwnEntries (JSValue.plain pents) :=
        olookup_some_mem hpk
      have hfil : (k, pv) ∈ (jsOwnEntries (JSValue.plain pents)).filter
          (fun kv => !hasOwnV (JSValue.immut bents) kv.1) := by
        rw [List.mem_filter]
        exact ⟨hmem, by simp [hasOwnV, jsOwnEntries, hbk]⟩
      have hnd : (objKeys ((jsOwnEntries (JSValue.plain pents)).filter
          (fun kv => !hasOwnV (JSValue.immut bents) kv.1))).Nodup := by
        rw [objKeys_filter_key (fun k0 => !hasOwnV (JSValue.immut bents) k0) _]
        exact List.Nodup.filter _ hp
      have := olookup_mem_nodup hnd hfil
      simpa using this
    · intro k bv pv hbk hpk hbt hpt
      have hown : hasOwnV (JSValue.plain pents) k = true := by
        simp [hasOwnV, jsOwnEntries, hpk]
      have hget : jsGetV (JSValue.plain pents) k = pv := by
        simp [jsGetV, jsOwnEntries, hpk]
      obtain ⟨xv, hxl, hxr⟩ := forall₂_olookup (fun _ _ hx => mergeRow_key hx) hf
        (show olookup (jsOwnEntries (JSValue.immut bents)) k = some bv from hbk)
      simp only [mergeRow, hown, hget, hbt, hpt, Bool.or_self,
        Bool.false_eq_true, if_false, Bool.true_eq_false] at hxr
      rcases hm : _setDeep bv pv with e | m
      · rw [hm] at hxr
        cases hxr
      · rw [hm] at hxr
        injection hxr with h2
        injection h2 with _ h3
        refine ⟨m, rfl, ?_⟩
        rw [← h3] at hxl
        rw [hent]
        exact olookup_append_left _ hxl
  · simp [ImmutableObject.setDeep, _setDeep, mergeBaseEntries, appendNewKeys,
      checkMergeObjectArgs, isTerminal, hasOwnV, jsGetV, jsOwnEntries, olookup,
      jsAssign, newImmutableObject, mergeInto, isImmutableValue]

theorem c5_witness :
    objKeys (jsOwnEntries (JSValue.immut [("k", JSValue.plain
      [("m", JSValue.prim 1), ("n", JSValue.prim 9), ("p", JSValue.prim 3)])])) =
      ["k"] := by
  have h := (c5_deep_recursive_merge.1
    [("k", JSValue.plain [("m", JSValue.prim 1), ("n", JSValue.prim 2)])]
    [("k", JSValue.plain [("n", JSValue.prim 9), ("p", JSValue.prim 3)])]
    (JSValue.immut [("k", JSValue.plain
      [("m", JSValue.prim 1), ("n", JSValue.prim 9), ("p", JSValue.prim 3)])])
    (by decide) (by decide) c5_deep_recursive_merge.2).1
  rw [h]
  rfl

/-- C6: at every recursion level of deep merge, the accumulated entries are
wrapped as a new sealed Immutable Value iff the base or the patch at that
level is itself an Immutable Value; otherwise the level returns a plain
(unsealed) mapping. -/
theorem c6_seal_iff_immutable_level :
    ∀ (o p r : JSValue), _setDeep o p = .ok r →
      isImmutableValue r = (isImmutableValue o || isImmutableValue p) := by
  have hmap : ∀ (o p r : JSValue), isTerminal o = false → isTerminal p = false →
      _setDeep o p = .ok r →
      isImmutableValue r = (isImmutableValue o || isImmutableValue p) := by
    intro o p r hto htp h
    rw [_setDeep_eq_on_mapping o p hto htp] at h
    rcases hm : mergeBaseEntries [] (jsOwnEntries o) p with e | merged
    · rw [hm] at h
      cases h
    · rw [hm] at h
      injection h with h'
      rw [← h']
      beta_reduce
      by_cases hio : (isImmutableValue o || isImmutableValue p) = true
      · rw [if_pos hio, hio]
        rfl
      · rw [if_neg hio]
        rw [show (isImmutableValue o || isImmutableValue p) = false from by
          simpa using hio]
        rfl
  intro o p r h
  cases o with
  | prim n => simp [_setDeep, checkMergeObjectArgs, isTerminal] at h
  | vnull => simp [_setDeep, checkMergeObjectArgs, isTerminal] at h
  | undef => simp [_setDeep, checkMergeObjectArgs, isTerminal] at h
  | arr l => simp [_setDeep, checkMergeObjectArgs, isTerminal] at h
  | plain bents =>
    by_cases htp : isTerminal p = true
    · simp [_setDeep, checkMergeObjectArgs, htp] at h
    · exact hmap _ p r rfl (by simpa using htp) h
  | immut bents =>
    by_cases htp : isTerminal p = true
    · simp [_setDeep, checkMergeObjectArgs, htp] at h
    · exact hmap _ p r rfl (by simpa using htp) h

theorem c6_witness :
    isImmutableValue (JSValue.immut ([] : List (String × JSValue))) =
      (isImmutableValue (JSValue.plain ([] : List (String × JSValue))) ||
        isImmutableValue (JSValue.immut ([] : List (String × JSValue)))) :=
  c6_seal_iff_immutable_level (JSValue.plain []) (JSValue.immut [])
    (JSValue.immut []) (by
      simp [_setDeep, mergeBaseEntries, appendNewKeys, checkMergeObjectArgs,
        isTerminal, hasOwnV, jsGetV, jsOwnEntries, olookup, jsAssign,
        newImmutableObject, mergeInto, isImmutableValue])

/-- C7: deleteProperty returns a new Immutable Value containing every entry
of the base except the named key, preserving the relative order of the
remaining keys; when the key is absent it raises no error and returns an
identity copy. -/
theorem c7_deleteProperty_char :
    ∀ (bents : List (String × JSValue)) (name : String),
      (objKeys bents).Nodup →
      ImmutableObject.deleteProperty (JSValue.immut bents) name =
        JSValue.immut (bents.filter (fun kv => kv.1 ≠ name)) ∧
      (name ∉ objKeys bents →
        ImmutableObject.deleteProperty (JSValue.immut bents) name =
          JSValue.immut bents) := by
  intro bents name hn
  have hfn : (objKeys (bents.filter (fun kv => decide (kv.1 ≠ name)))).Nodup := by
    rw [objKeys_filter_key (fun k => decide (k ≠ name)) bents]
    exact List.Nodup.filter _ hn
  have hmain : ImmutableObject.deleteProperty (JSValue.immut bents) name =
      JSValue.immut (bents.filter (fun kv => kv.1 ≠ name)) := by
    simp only [ImmutableObject.deleteProperty, jsOwnEntries]
    rw [foldl_guard_filter (fun c kv => jsAssign c kv.1 kv.2)
      (fun kv => kv.1 ≠ name) bents []]
    rw [foldl_jsAssign_nil _ hfn]
    simp only [newImmutableObject, List.foldl_cons, List.foldl_nil, mergeInto,
      jsOwnEntries]
    rw [foldl_jsAssign_nil _ hfn]
  refine ⟨hmain, fun hmem => ?_⟩
  rw [hmain]
  congr 1
  refine List.filter_eq_self.mpr ?_
  intro kv hkv
  refine decide_eq_true ?_
  intro he
  exact hmem (he ▸ List.mem_map.mpr ⟨kv, hkv, rfl⟩)

theorem c7_witness :
    ImmutableObject.deleteProperty
      (JSValue.immut [("a", JSValue.prim 1), ("b", JSValue.prim 2)]) "a" =
      JSValue.immut [("b", JSValue.prim 2)] ∧
    ImmutableObject.deleteProperty
      (JSValue.immut [("a", JSValue.prim 1), ("b", JSValue.prim 2)]) "zz" =
      JSValue.immut [("a", JSValue.prim 1), ("b", JSValue.prim 2)] := by
  constructor
  · rw [(c7_deleteProperty_char [("a", JSValue.prim 1), ("b", JSValue.prim 2)]
      "a" (by decide)).1]
    rfl
  · exact (c7_deleteProperty_char [("a", JSValue.prim 1), ("b", JSValue.prim 2)]
      "zz" (by decide)).2 (by decide)

theorem _setDeep_error_class (n : Nat) :
    (∀ (o p : JSValue) (e : MergeError), sizeOf o ≤ n →
      _setDeep o p = .error e → e = .invalidArgument) ∧
    (∀ (total bents : List (String × JSValue)) (put : JSValue) (e : MergeError),
      sizeOf bents ≤ n →
      mergeBaseEntries total bents put = .error e → e = .invalidArgument) := by
  induction n with
  | zero =>
    constructor
    · intro o p e hsz h
      exfalso
      cases o <;> simp at hsz
    · intro total bents put e hsz h
      exfalso
      cases bents <;> simp at hsz
  | succ n ih =>
    constructor
    · intro o p e hsz h
      cases o with
      | prim m =>
        simp only [_setDeep] at h
        rw [show checkMergeObjectArgs (JSValue.prim m) p = .error .invalidArgument
          from by simp [checkMergeObjectArgs, isTerminal]] at h
        injection h with he
        exact he.symm
      | vnull =>
        simp only [_setDeep] at h
        rw [show checkMergeObjectArgs JSValue.vnull p = .error .invalidArgument
          from by simp [checkMergeObjectArgs, isTerminal]] at h
        injection h with he
        exact he.symm
      | undef =>
        simp only [_setDeep] at h
        rw [show checkMergeObjectArgs JSValue.undef p = .error .invalidArgument
          from by simp [checkMergeObjectArgs, isTerminal]] at h
        injection h with he
        exact he.symm
      | arr l =>
        simp only [_setDeep] at h
        rw [show checkMergeObjectArgs (JSValue.arr l) p = .error .invalidArgument
          from by simp [checkMergeObjectArgs, isTerminal]] at h
        injection h with he
        exact he.symm
      | plain bents =>
        have hlt : sizeOf bents ≤ n := by
          have := hsz
          simp at this
          omega
        simp only [_setDeep] at h
        rcases hc : checkMergeObjectArgs (JSValue.plain bents) p with e' | u
        · rw [hc] at h
          injection h with he
          have he' : e' = .invalidArgument := by
            unfold checkMergeObjectArgs at hc
            by_cases hcc : (isTerminal (JSValue.plain bents) || isTerminal p) = true
            · rw [if_pos hcc] at hc
              injection hc with h2
              exact h2.symm
            · rw [if_neg hcc] at hc
              cases hc
          rw [← he, he']
        · rw [hc] at h
          rcases hm : mergeBaseEntries [] bents p with e2 | merged
          · rw [hm] at h
            injection h with he
            rw [← he]
            exact ih.2 [] bents p e2 hlt hm
          · rw [hm] at h
            exact Except.noConfusion h
      | immut bents =>
        have hlt : sizeOf bents ≤ n := by
          have := hsz
          simp at this
          omega
        simp only [_setDeep] at h
        rcases hc : checkMergeObjectArgs (JSValue.immut bents) p with e' | u
        · rw [hc] at h
          injection h with he
          have he' : e' = .invalidArgument := by
            unfold checkMergeObjectArgs at hc
            by_cases hcc : (isTerminal (JSValue.immut bents) || isTerminal p) = true
            · rw [if_pos hcc] at hc
              injection hc with h2
              exact h2.symm
            · rw [if_neg hcc] at hc
              cases hc
          rw [← he, he']
        · rw [hc] at h
          rcases hm : mergeBaseEntries [] bents p with e2 | merged
          · rw [hm] at h
            injection h with he
            rw [← he]
            exact ih.2 [] bents p e2 hlt hm
          · rw [hm] at h
            exact Except.noConfusion h
    · intro total bents put e hsz h
      cases bents with
      | nil =>
        simp only [mergeBaseEntries] at h
        exact Except.noConfusion h
      | cons kv rest =>
        obtain ⟨key, bval⟩ := kv
        have hltr : sizeOf rest ≤ n := by
          have := hsz
          simp at this
          omega
        have hltv : sizeOf bval ≤ n := by
          have := hsz
          simp at this
          omega
        simp only [mergeBaseEntries] at h
        by_cases h1 : hasOwnV put key = false
        · rw [if_pos h1] at h
          exact ih.2 _ rest put e hltr h
        · rw [if_neg h1] at h
          by_cases h2 : (isTerminal bval || isTerminal (jsGetV put key)) = true
          · rw [if_pos h2] at h
            exact ih.2 _ rest put e hltr h
          · rw [if_neg h2] at h
            rcases hs2 : _setDeep bval (jsGetV put key) with e2 | rv
            · rw [hs2] at h
              injection h with he
              rw [← he]
              exact ih.1 bval (jsGetV put key) e2 hltv hs2
            · rw [hs2] at h
              exact ih.2 _ rest put e hltr h

/-- C8: a mapping-compatibility validation failure at a recursion level of
deep merge raises an InvalidArgument-class error synchronously and
propagates up, aborting the whole merge with no partial result: the
`checkMergeObjectArgs` failure surfaces unchanged from `setDeep`, and every
error the merge can produce is of the InvalidArgument class. -/
theorem c8_validation_failure_aborts :
    (∀ (bents : List (String × JSValue)) (put : JSValue) (e : MergeError),
      checkMergeObjectArgs (JSValue.immut bents) put = .error e →
      ImmutableObject.setDeep (JSValue.immut bents) put = .error e) ∧
    (∀ (o p : JSValue) (e : MergeError), _setDeep o p = .error e →
      e = .invalidArgument) := by
  constructor
  · intro bents put e hc
    show _setDeep (JSValue.immut bents) put = .error e
    simp only [_setDeep, hc]
  · intro o p e h
    exact (_setDeep_error_class (sizeOf o)).1 o p e le_rfl h

theorem c8_witness :
    ImmutableObject.setDeep (JSValue.immut [("a", JSValue.prim 1)])
      (JSValue.prim 5) = .error .invalidArgument ∧
    MergeError.invalidArgument = .invalidArgument := by
  constructor
  · exact c8_validation_failure_aborts.1 [("a", JSValue.prim 1)]
      (JSValue.prim 5) .invalidArgument rfl
  · exact c8_validation_failure_aborts.2 (JSValue.prim 1) (JSValue.prim 2)
      .invalidArgument (by simp [_setDeep, checkMergeObjectArgs, isTerminal])

/-- C3: no merge operation mutates its inputs: after `set`, `setProperty`,
`deleteProperty` or `setDeep` (store embedding), every address that existed
before the call still holds the same node — base and patch entries and
values are unchanged, and the operations write only into freshly allocated
result nodes. -/
theorem c3_merge_ops_no_mutation :
    (∀ (h : Heap) (b pa : Addr) (h' : Heap) (r : Addr),
      hSet h b pa = .ok (h', r) → ∀ a, a < h.length → h'[a]? = h[a]?) ∧
    (∀ (h : Heap) (b : Addr) (f : String) (pv : Addr) (h' : Heap) (r : Addr),
      hSetProperty h b f pv = .ok (h', r) → ∀ a, a < h.length → h'[a]? = h[a]?) ∧
    (∀ (h : Heap) (b : Addr) (d : String) (a : Addr), a < h.length →
      (hDeleteProperty h b d).1[a]? = h[a]?) ∧
    (∀ (fuel : Nat) (h : Heap) (b pa : Addr) (h' : Heap) (r : Addr),
      hSetDeep fuel h b pa = .ok (h', r) → ∀ a, a < h.length → h'[a]? = h[a]?) := by
  refine ⟨?_, ?_, ?_, ?_⟩
  · intro h b pa h' r hs a ha
    obtain ⟨_, _, n, rfl⟩ := hSet_ok_shape hs
    exact getElem?_append_lt h [n] ha
  · intro h b f pv h' r hs a ha
    have hs' : hSet (h ++ [Node.plain [(f, pv)]]) b h.length = .ok (h', r) := hs
    obtain ⟨_, _, n, rfl⟩ := hSet_ok_shape hs'
    rw [getElem?_append_lt _ [n] (by simp; omega)]
    exact getElem?_append_lt h _ ha
  · intro h b d a ha
    exact getElem?_append_lt h _ ha
  · intro fuel h b pa h' r hs a ha
    unfold hSetDeep at hs
    rcases hb : h[b]? with _ | nb
    · rw [hb] at hs
      cases hs
    · rw [hb] at hs
      cases nb with
      | immut bents =>
        have hs' : hSetDeepRec fuel h b pa = .ok (h', r) := hs
        obtain ⟨ext, rfl⟩ := (heap_extends fuel).1 h b pa h' r hs'
        exact getElem?_append_lt h ext ha
      | prim m => cases hs
      | vnull => cases hs
      | undef => cases hs
      | arr l => cases hs
      | plain fs => cases hs

theorem c3_witness :
    ([Node.prim 7, Node.immut [("a", 0)], Node.plain [],
        Node.immut [("a", 0)]] : Heap)[(0 : Addr)]? =
      ([Node.prim 7, Node.immut [("a", 0)], Node.plain []] : Heap)[(0 : Addr)]? ∧
    ([Node.prim 7, Node.immut [("a", 0)], Node.plain [],
        Node.plain [("b", 0)], Node.immut [("a", 0), ("b", 0)]] : Heap)[(0 : Addr)]? =
      ([Node.prim 7, Node.immut [("a", 0)], Node.plain []] : Heap)[(0 : Addr)]? ∧
    (hDeleteProperty [Node.prim 7, Node.immut [("a", 0)], Node.plain []] 1
        "a").1[(0 : Addr)]? =
      ([Node.prim 7, Node.immut [("a", 0)], Node.plain []] : Heap)[(0 : Addr)]? ∧
    ([Node.prim 7, Node.immut [("a", 0)], Node.plain [],
        Node.immut [("a", 0)]] : Heap)[(0 : Addr)]? =
      ([Node.prim 7, Node.immut [("a", 0)], Node.plain []] : Heap)[(0 : Addr)]? := by
  refine ⟨?_, ?_, ?_, ?_⟩
  · exact c3_merge_ops_no_mutation.1
      [Node.prim 7, Node.immut [("a", 0)], Node.plain []] 1 2 _ 3 rfl 0 (by decide)
  · exact c3_merge_ops_no_mutation.2.1
      [Node.prim 7, Node.immut [("a", 0)], Node.plain []] 1 "b" 0 _ 4 rfl 0
      (by decide)
  · exact c3_merge_ops_no_mutation.2.2.1
      [Node.prim 7, Node.immut [("a", 0)], Node.plain []] 1 "a" 0 (by decide)
  · exact c3_merge_ops_no_mutation.2.2.2 5
      [Node.prim 7, Node.immut [("a", 0)], Node.plain []] 1 2 _ 3 rfl 0 (by decide)

/-- C9: structural sharing in deep merge — for every key of the base that
the patch lacks, the result's value at that key is the very same address
(reference) as the base's value; with an empty patch the result node holds
exactly the base's field list, every nested sub-value reference-identical
to the base's. -/
theorem c9_structural_sharing :
    (∀ (fuel : Nat) (h : Heap) (o p : Addr) (h' : Heap) (r : Addr)
      (no np : Node), h[o]? = some no → h[p]? = some np →
      (objKeys (entriesN no)).Nodup → (objKeys (entriesN np)).Nodup →
      hSetDeep fuel h o p = .ok (h', r) →
      ∀ (k : String) (a : Addr), olookup (entriesN no) k = some a →
        olookup (entriesN np) k = none →
        olookup (hEntriesAt h' r) k = some a) ∧
    (∀ (fuel : Nat) (h : Heap) (o p : Addr) (h' : Heap) (r : Addr)
      (bents : List (String × Addr)), h[o]? = some (Node.immut bents) →
      h[p]? = some (Node.plain []) → (objKeys bents).Nodup →
      hSetDeep fuel h o p = .ok (h', r) →
      h'[r]? = some (Node.immut bents)) := by
  constructor
  · intro fuel h o p h' r no np ho hp hbn hpn hs k a hbk hpk
    unfold hSetDeep at hs
    rw [ho] at hs
    cases no with
    | immut bents =>
      have hs' : hSetDeepRec fuel h o p = .ok (h', r) := hs
      obtain ⟨rows, hf, hr⟩ := hSetDeepRec_result ho hp hbn hpn hs'
      obtain ⟨b2, hbl, hrel⟩ := forall₂_olookup (fun _ _ hx => hx.1) hf hbk
      have hba : (k, b2) = (k, a) := hrel.2 hpk
      injection hba with _ hba2
      rw [hba2] at hbl
      simp only [hEntriesAt, hr, isImmutN, Bool.true_or, if_true, entriesN]
      exact olookup_append_left _ hbl
    | prim m => cases hs
    | vnull => cases hs
    | undef => cases hs
    | arr l => cases hs
    | plain fs => cases hs
  · intro fuel h o p h' r bents hb0 hp0 hn hs
    unfold hSetDeep at hs
    rw [hb0] at hs
    have hs' : hSetDeepRec fuel h o p = .ok (h', r) := hs
    obtain ⟨rows, hf, hr⟩ := hSetDeepRec_result hb0 hp0
      (show (objKeys (entriesN (Node.immut bents))).Nodup from hn)
      (by simp [entriesN, objKeys]) hs'
    have hrows : rows = bents := by
      have hf' : List.Forall₂ (fun kv x => x = kv) bents rows :=
        hf.imp (fun _ _ hab => hab.2 rfl)
      exact forall₂_flip_eq hf'
    subst hrows
    rw [hr]
    simp [isImmutN, entriesN]

theorem c9_witness :
    olookup (hEntriesAt
      [Node.prim 7, Node.immut [("a", 0), ("b", 0)], Node.plain [("b", 0)],
        Node.immut [("a", 0), ("b", 0)]] 3) "a" = some 0 ∧
    ([Node.prim 7, Node.immut [("a", 0)], Node.plain [],
        Node.immut [("a", 0)]] : Heap)[(3 : Addr)]? = some (Node.immut [("a", 0)]) := by
  constructor
  · exact c9_structural_sharing.1 5
      [Node.prim 7, Node.immut [("a", 0), ("b", 0)], Node.plain [("b", 0)]] 1 2
      _ 3 (Node.immut [("a", 0), ("b", 0)]) (Node.plain [("b", 0)]) rfl rfl
      (by decide) (by decide) rfl "a" 0 rfl rfl
  · exact c9_structural_sharing.2 5
      [Node.prim 7, Node.immut [("a", 0)], Node.plain []] 1 2 _ 3 [("a", 0)]
      rfl rfl (by decide) rfl
